import Mathlib

/- Shallow embedding of the subtitle/timing core of the video-translator
repository: the sentence boundary extractor and the sentence-count matcher
(src/sentence_utils.py), the manual splitter (src/manual_split.py), the
display formatter (src/sentence_utils.py), the cue allocator
(src/subtitle.py) and the audio timeline reconciler (src/tts.py).
Python strings are modelled as lists of characters and machine floats as
exact rationals. -/

/-- A Python string, modelled as a list of characters. -/
abbrev Str := List Char

/-- Remove every whitespace character; Python `''.join(s.split())`,
used in the fidelity comparisons of manual_split.py. -/
def removeWs (s : Str) : Str := s.filter (fun c => !c.isWhitespace)

/-- Python `str.strip()`: drop whitespace at both ends. -/
def stripStr (s : Str) : Str :=
  ((s.dropWhile Char.isWhitespace).reverse.dropWhile Char.isWhitespace).reverse

/-- A transcribed word with its timing, as produced by transcription
(keys `word`, `start_time`, `end_time`). -/
structure Word where
  word : Str
  start_time : ℚ
  end_time : ℚ
deriving DecidableEq

/-- A sentence window (the dicts built by `extract_sentences` in
src/sentence_utils.py, keys `start`/`end`/`words`; `end` is a Lean keyword
and is rendered `stop`). -/
structure SentenceW where
  start : ℚ
  stop : ℚ
  words : List Word
deriving DecidableEq

/-- `word["word"].endswith(('.', '!', '?', '。', '！', '？'))` from
src/sentence_utils.py line 27: a tuple of single characters, so this is a
test on the last character; Python's endswith on an empty string is False. -/
def endsSentence (w : Word) : Bool :=
  match w.word.getLast? with
  | some c => c ∈ ['.', '!', '?', '。', '！', '？']
  | none => false

/-- Close the current accumulation into a sentence dict: the Python code
sets `start` to the first accumulated word's start_time and has updated
`end` to each appended word's end_time, so at close it is the last word's
end_time (src/sentence_utils.py lines 21-35, 38-40). -/
def closeSentence (cur : List Word) : SentenceW :=
  { start := ((cur.head?).map Word.start_time).getD 0
    stop := ((cur.getLast?).map Word.end_time).getD 0
    words := cur }

/-- The word-accumulation loop of `extract_sentences`
(src/sentence_utils.py lines 16-40), with the current accumulation as an
explicit parameter; the trailing non-terminated accumulation is flushed. -/
def gatherSentences (cur : List Word) : List Word → List SentenceW
  | [] => if cur.isEmpty then [] else [closeSentence cur]
  | w :: rest =>
    let cur2 := cur ++ [w]
    if endsSentence w then closeSentence cur2 :: gatherSentences [] rest
    else gatherSentences cur2 rest

/-- The gap-fill post-pass of `extract_sentences` (src/sentence_utils.py
lines 43-50): for each adjacent pair, if the gap between this sentence's
end and the next sentence's start exceeds 0.2s, extend this end by 80% of
the gap.  The Python loop reads each `sentences[i]["end"]` before writing
it and never writes any `start`, so the functional pass is equivalent. -/
def gapFill : List SentenceW → List SentenceW
  | [] => []
  | [s] => [s]
  | s :: t :: rest =>
    let gap := t.start - s.stop
    let s' := if gap > 1/5 then { s with stop := s.stop + gap * (4/5) } else s
    s' :: gapFill (t :: rest)

/-- `extract_sentences` from src/sentence_utils.py lines 6-53. -/
def extract_sentences (words : List Word) : List SentenceW :=
  gapFill (gatherSentences [] words)

/-- One synthesized audio segment record: original window start, measured
synthesized duration and the original sentence index. -/
structure AudioSeg where
  index : ℕ
  start : ℚ
  duration : ℚ
deriving DecidableEq

/-- One entry of the sequential timeline exposed to the subtitle layer
(tts.py lines 373-382; only the fields subtitle.py reads are kept). -/
structure TimingEntry where
  index : ℕ
  sequential_start : ℚ
  sequential_end : ℚ
deriving DecidableEq

/-- The overlap detection scan (tts.py lines 297-302): some adjacent pair
satisfies `current["start"] + current["duration"] - 2 > next_seg["start"]`.
The Python loop breaks at the first such pair; since the retiming result
does not depend on which pair triggered, detection is equivalent to this
any-adjacent-pair test. -/
def hasOverlap : List AudioSeg → Bool
  | a :: b :: rest => (decide (a.start + a.duration - 2 > b.start)) || hasOverlap (b :: rest)
  | _ => false

/-- The sequential retiming loop (tts.py lines 307-320): starting from
`current_time = 0`, each segment gets `[current_time, current_time +
duration]` and `current_time` then advances by `duration + 0.1`. -/
def seqTimes (t : ℚ) : List AudioSeg → List TimingEntry
  | [] => []
  | a :: rest => ⟨a.index, t, t + a.duration⟩ :: seqTimes (t + a.duration + 1/10) rest

/-- The reconciler: `audio_timing` is the sequential timeline when overlap
was detected, and None otherwise (tts.py lines 296-328, 371-385). -/
def computeAudioTiming (segs : List AudioSeg) : Option (List TimingEntry) :=
  if hasOverlap segs then some (seqTimes 0 segs) else none

/-- The max-line-length selection at the top of
`format_sentence_for_display` (src/sentence_utils.py lines 160-169): the
language table overwrites the passed-in max_line_length whenever
target_language is truthy; an absent (None) or empty language keeps the
passed-in value and is modelled as the empty string. -/
def effectiveMax (maxLineLength : ℕ) (lang : String) : ℕ :=
  if lang = "" then maxLineLength
  else if lang = "en" then 50
  else if lang = "ja" then 15
  else if lang = "zh" ∨ lang = "ko" then 30
  else 40

/-- Split a character list at every character satisfying p; separators are
dropped and empty pieces kept (helper for Python's split). -/
def splitOnP (p : Char → Bool) : Str → List Str
  | [] => [[]]
  | c :: cs =>
    match splitOnP p cs with
    | [] => [[]]
    | q :: qs => if p c then [] :: q :: qs else (c :: q) :: qs

/-- Python `str.split()` with no argument: whitespace-run separation with
no empty tokens (src/sentence_utils.py line 178). -/
def splitWs (t : Str) : List Str :=
  (splitOnP Char.isWhitespace t).filter (fun s => !s.isEmpty)

/-- The lookahead split of `split_text_advanced`
(src/sentence_utils.py lines 139-143): `re.split(r'(?<=[、。！？])', p)`
cuts right after each of the listed marks, keeping the mark at the end of
its piece. -/
def splitAfter (seps : List Char) : Str → List Str
  | [] => [[]]
  | c :: cs =>
    if c ∈ seps then [c] :: splitAfter seps cs
    else
      match splitAfter seps cs with
      | [] => [[c]]
      | q :: qs => (c :: q) :: qs

/-- `split_text_advanced` (src/sentence_utils.py lines 139-143). -/
def split_text_advanced (t : Str) : List Str :=
  ((splitAfter ['、', '。', '！', '？'] t).map stripStr).filter (fun s => !s.isEmpty)

/-- The greedy token-packing loop of `format_sentence_for_display`
(src/sentence_utils.py lines 179-196), with the current line and the
emitted lines as explicit accumulators. -/
def packLines (m : ℕ) : List Str → Str → List Str → List Str
  | [], cur, acc => if cur.isEmpty then acc else acc ++ [cur]
  | w :: rest, cur, acc =>
    if cur.length + w.length + 1 > m ∧ cur ≠ [] then
      packLines m rest w (acc ++ [cur])
    else
      packLines m rest (if cur.isEmpty then w else cur ++ ' ' :: w) acc

/-- `format_sentence_for_display` (src/sentence_utils.py lines 145-197).
The Python signature defaults max_line_length to 50; an absent
target_language is the empty string. -/
def format_sentence_for_display (sentence : Str) (maxLineLength : ℕ) (lang : String) : List Str :=
  let m := effectiveMax maxLineLength lang
  if sentence.length ≤ m then [sentence]
  else
    let words := if lang = "ja" then split_text_advanced sentence else splitWs sentence
    packLines m words [] []

/-- One SRT cue: running index, time window and at most two display
lines. -/
structure Cue where
  index : ℕ
  start : ℚ
  stop : ℚ
  lines : List Str
deriving DecidableEq

/-- `math.ceil(len(formatted_lines)/2)` (src/subtitle.py line 122). -/
def numParts (n : ℕ) : ℕ := (n + 1) / 2

/-- The per-segment cue emission of `create_subtitles` (src/subtitle.py
lines 119-156): more than two lines are split into parts of at most two
lines with proportional timing (the final single-line part shortened to
base/2 + 1 and every end clamped to the window end); otherwise a single
cue spans the window.  `idx0` is the running subtitle_index. -/
def cuesForSegment (idx0 : ℕ) (s e : ℚ) (lines : List Str) : List Cue :=
  if 2 < lines.length then
    let parts := numParts lines.length
    let base := (e - s) / (parts : ℚ)
    (List.range parts).map (fun k =>
      let partLines := (lines.drop (2 * k)).take 2
      let dur := if k = parts - 1 ∧ partLines.length = 1 then base / 2 + 1 else base
      let ps := s + (k : ℚ) * base
      { index := idx0 + k, start := ps, stop := min (ps + dur) e, lines := partLines })
  else
    [{ index := idx0, start := s, stop := e, lines := lines }]

/-- The timing selection of `create_subtitles` (src/subtitle.py lines
107-115): when audio_timing is present, segment position i takes the
entry `audio_timing[i]` positionally when it exists, and the original
window otherwise. -/
def selectWindow (audioTiming : Option (List TimingEntry)) (i : ℕ) (orig : ℚ × ℚ) : ℚ × ℚ :=
  match audioTiming with
  | some tl =>
    match tl[i]? with
    | some entry => (entry.sequential_start, entry.sequential_end)
    | none => orig
  | none => orig

/-- Modelled from the spec's words (§4.4 timeline selection), for
comparison with the code's `selectWindow`: use a Sequential Timeline entry
only if one exists for the segment's index. -/
def selectWindowSpec (audioTiming : Option (List TimingEntry)) (i : ℕ) (orig : ℚ × ℚ) : ℚ × ℚ :=
  match audioTiming with
  | some tl =>
    match tl.find? (fun entry => entry.index == i) with
    | some entry => (entry.sequential_start, entry.sequential_end)
    | none => orig
  | none => orig

/-- The cue-building loop of `create_subtitles` (src/subtitle.py lines
98-156) over (translated sentence, original window) pairs: `idx` is the
running subtitle_index and `i` the running segment position;
`format_sentence_for_display` is called with its default max length. -/
def createCues (lang : String) (audioTiming : Option (List TimingEntry)) :
    ℕ → ℕ → List (Str × ℚ × ℚ) → List Cue
  | _, _, [] => []
  | idx, i, (text, orig) :: rest =>
    let w := selectWindow audioTiming i orig
    let cs := cuesForSegment idx w.1 w.2 (format_sentence_for_display text 50 lang)
    cs ++ createCues lang audioTiming (idx + cs.length) (i + 1) rest

/-- The whole cue timeline of `create_subtitles`: subtitle_index starts at
1 (src/subtitle.py line 99). -/
def create_subtitles_cues (lang : String) (audioTiming : Option (List TimingEntry))
    (segs : List (Str × ℚ × ℚ)) : List Cue :=
  createCues lang audioTiming 1 0 segs

/-- The per-segment windows actually used by `createCues`, in order. -/
def selectedWindows (audioTiming : Option (List TimingEntry)) :
    ℕ → List (Str × ℚ × ℚ) → List (ℚ × ℚ)
  | _, [] => []
  | i, (_, orig) :: rest =>
    selectWindow audioTiming i orig :: selectedWindows audioTiming (i + 1) rest

/-- The sentence-ending marks of src/sentence_utils.py line 67. -/
def primaryEnders : List Char := ['.', '!', '?', '。', '！', '？']

/-- The secondary marks of src/sentence_utils.py line 83. -/
def secondaryEnders : List Char := [',', ';', ':', '，', '；', '：']

/-- The replace loop of src/sentence_utils.py lines 67-68 (and 83-84):
each separator occurrence gets a '|' inserted after it.  Python runs one
`replace(c, c + '|')` per separator; the separators are distinct and none
is '|', and no replacement creates a new separator occurrence, so the
iterated replaces equal this single pass. -/
def markSeps (seps : List Char) (t : Str) : Str :=
  t.bind (fun c => if c ∈ seps then [c, '|'] else [c])

/-- Python `str.split(sep)` for a single-character separator: separators
dropped, empty pieces kept. -/
def splitOnSep (sep : Char) : Str → List Str
  | [] => [[]]
  | c :: cs =>
    match splitOnSep sep cs with
    | [] => [[]]
    | q :: qs => if c = sep then [] :: q :: qs else (c :: q) :: qs

/-- `[s.strip() for s in xs if s.strip()]`. -/
def cleanParts (l : List Str) : List Str :=
  (l.map stripStr).filter (fun s => !s.isEmpty)

/-- The primary punctuation split (src/sentence_utils.py lines 66-70). -/
def initialSplit (t : Str) : List Str :=
  cleanParts (splitOnSep '|' (markSeps primaryEnders t))

/-- The secondary split of one sentence by commas, semicolons and colons
(src/sentence_utils.py lines 82-86). -/
def secondarySplit (s : Str) : List Str :=
  cleanParts (splitOnSep '|' (markSeps secondaryEnders s))

/-- Python `' '.join(l)`. -/
def joinSpace : List Str → Str
  | [] => []
  | [s] => s
  | s :: rest => s ++ ' ' :: joinSpace rest

/-- The grouping loop of `combine_sentences` (src/sentence_utils.py lines
120-133): enumerate index, emitted groups and current group as explicit
state; a group is flushed when `(i + 1) / sentences_per_group >=
len(combined_sentences) + 1`. -/
def combineGo (spg : ℚ) : List Str → ℕ → List Str → List Str → List Str
  | [], _, comb, cur => if cur.isEmpty then comb else comb ++ [joinSpace cur]
  | s :: rest, i, comb, cur =>
    let cur2 := cur ++ [s]
    if ((i : ℚ) + 1) / spg ≥ (comb.length : ℚ) + 1 then
      combineGo spg rest (i + 1) (comb ++ [joinSpace cur2]) []
    else
      combineGo spg rest (i + 1) comb cur2

/-- `combine_sentences` (src/sentence_utils.py lines 105-136);
`sentences_per_group` is `len(sentences) / target_count`. -/
def combine_sentences (sentences : List Str) (target : ℕ) : List Str :=
  combineGo ((sentences.length : ℚ) / (target : ℚ)) sentences 0 [] []

/-- `split_into_matching_sentences` (src/sentence_utils.py lines 55-103).
After the under-count branch falls through, Python re-tests
`len(initial_sentences) > target_count` (line 97), which is then
necessarily false; the dead test is kept. -/
def split_into_matching_sentences (t : Str) (target : ℕ) : List Str :=
  let initial := initialSplit t
  if initial.length = target then initial
  else if initial.length < target then
    let more := initial.bind secondarySplit
    if more.length ≥ target then
      if more.length > target then combine_sentences more target else more
    else if initial.length > target then combine_sentences initial target
    else initial
  else combine_sentences initial target

/-- An original sentence window as consumed by manual_split.py: only the
start/end times influence the result (the word lists are used solely for
logging); `end` is rendered `stop`. -/
structure OrigSent where
  start : ℚ
  stop : ℚ
deriving DecidableEq

/-- Python `int(q)`: truncation toward zero. -/
def pyInt (q : ℚ) : ℤ := if 0 ≤ q then ⌊q⌋ else -⌊-q⌋

/-- `int(...)` used as a slice index / count, clamped to ℕ.  (Python's
from-the-end semantics of negative slice indices is not modelled; the
relevant theorems assume nonnegative durations, under which all indices
here are nonnegative.) -/
def pyIntNat (q : ℚ) : ℕ := (pyInt q).toNat

/-- Python `pat in t` for a string pattern. -/
def containsSeq (pat : Str) : Str → Bool
  | [] => pat.isEmpty
  | c :: rest => pat.isPrefixOf (c :: rest) || containsSeq pat rest

/-- Python `t.split(sep)` for a non-empty multi-character separator:
non-overlapping left-to-right matches, separators dropped, empty pieces
kept (used for the `'. '`-style splits of manual_split.py line 110). -/
def splitOnSeq (sep : Str) : Str → List Str
  | [] => [[]]
  | c :: rest =>
    if h : sep ≠ [] ∧ sep.isPrefixOf (c :: rest) then
      [] :: splitOnSeq sep ((c :: rest).drop sep.length)
    else
      match splitOnSeq sep rest with
      | [] => [[]]
      | q :: qs => (c :: q) :: qs
termination_by t => t.length
decreasing_by
  · have hlen : 1 ≤ sep.length := List.length_pos.mpr h.1
    simp only [List.length_drop, List.length_cons]
    omega
  · simp only [List.length_cons]
    omega

/-- The part-reassembly loop of manual_split.py lines 108-118: re-append
the stripped separator character between stripped parts, skipping while
the current accumulator is empty (Python's `if current:`). -/
def rebuildParts (sepc : Char) : List Str → Str → List Str → List Str
  | [], cur, acc => if cur.isEmpty then acc else acc ++ [cur]
  | p :: rest, cur, acc =>
    if cur.isEmpty then rebuildParts sepc rest (stripStr p) acc
    else rebuildParts sepc rest (stripStr p) (acc ++ [cur ++ [sepc]])

/-- The `'. '`/`'! '`/`'? '` tier loop of manual_split.py lines 104-132
for non-ja/zh languages: some = an early return (2 parts directly, or >2
parts merged at `max(1, int(len(parts)*first_ratio))` with `' '.join`);
none = fall through to the length-proportional split. -/
def trySplitChars (t : Str) (fr : ℚ) : List Char → Option (List Str)
  | [] => none
  | c :: cs =>
    if containsSeq [c, ' '] t then
      let parts := rebuildParts c (splitOnSeq [c, ' '] t) [] []
      if parts.length = 2 then some parts
      else if 2 < parts.length then
        let mp := max 1 (pyIntNat ((parts.length : ℚ) * fr))
        some [joinSpace (parts.take mp), joinSpace (parts.drop mp)]
      else trySplitChars t fr cs
    else trySplitChars t fr cs

/-- The break characters searched by the ja/zh proportional tier
(manual_split.py line 93). -/
def jaBreaks : List Char := ['、', '，', '。', '！', '？', ' ']

/-- The `'。'` tier of manual_split.py lines 42-81 for ja/zh: some = an
early return that passed the whitespace-insensitive fidelity check; none =
fidelity mismatch or not enough parts, falling through to the
length-proportional split. -/
def tryJaSplit (t : Str) (fr : ℚ) : Option (List Str) :=
  if '。' ∈ t then
    let parts0 := splitOnSep '。' t
    let parts := (parts0.filter (fun p => !(stripStr p).isEmpty)).map
      (fun p => stripStr p ++ ['。'])
    if parts.length = 2 then
      if removeWs parts.join = removeWs t then some parts else none
    else if 2 < parts.length then
      let mp := max 1 (pyIntNat ((parts.length : ℚ) * fr))
      let fp := (parts.take mp).join
      let sp := (parts.drop mp).join
      if removeWs (fp ++ sp) = removeWs t then some [fp, sp] else none
    else none
  else none

/-- The punctuation search of the length-proportional tier
(manual_split.py lines 92-96 and 142-146): first index in
`range(max(0, sp - w), min(len, sp + w))` whose character is a break
character. -/
def findBreak (breaks : List Char) (t : Str) (a b : ℕ) : Option ℕ :=
  (List.range' a (b - a)).find? (fun i =>
    match t[i]? with
    | some ch => decide (ch ∈ breaks)
    | none => false)

/-- The length-proportional two-way split (manual_split.py lines 83-102
and 134-152): split point `int(len(t) * first_ratio)`, search window
`min(20, len(t) // 4)`; the ja/zh branch splits after the found mark
(`i + 1`), the other branch at the found space (`i`); raw offset if no
break character is found. -/
def proportionalSplit2 (breaks : List Char) (plusOne : Bool) (t : Str) (fr : ℚ) : List Str :=
  let sp := pyIntNat ((t.length : ℚ) * fr)
  let w := min 20 (t.length / 4)
  let a := sp - w
  let b := min t.length (sp + w)
  let best := match findBreak breaks t a b with
    | some i => if plusOne then i + 1 else i
    | none => sp
  [stripStr (t.take best), stripStr (t.drop best)]

/-- The general proportional split for more than two original sentences
(manual_split.py lines 154-174): contiguous character ranges at offsets
`int(total * i / n)`, the last sentence taking the remainder. -/
def proportionalSplit (t : Str) (n : ℕ) : List Str :=
  (List.range n).map (fun (i : ℕ) =>
    let startIdx := pyIntNat ((t.length : ℚ) * ((i : ℚ) / (n : ℚ)))
    if i = n - 1 then stripStr (t.drop startIdx)
    else
      let endIdx := pyIntNat ((t.length : ℚ) * (((i : ℚ) + 1) / (n : ℚ)))
      stripStr ((t.take endIdx).drop startIdx))

/-- `manual_split_sentences` (src/manual_split.py lines 8-174).  With two
original sentences, `first_ratio = first_time / total_time` (a Python
ZeroDivisionError when total_time is 0; rational division by zero gives 0
here, and the theorems assume a positive total). -/
def manual_split_sentences (t : Str) (origs : List OrigSent) (lang : String) : List Str :=
  match origs with
  | [_] => [t]
  | [o1, o2] =>
    let ft := o1.stop - o1.start
    let st := o2.stop - o2.start
    let fr := ft / (ft + st)
    if lang = "ja" ∨ lang = "zh" then
      match tryJaSplit t fr with
      | some r => r
      | none => proportionalSplit2 jaBreaks true t fr
    else
      match trySplitChars t fr ['.', '!', '?'] with
      | some r => r
      | none => proportionalSplit2 [' '] false t fr
  | _ => proportionalSplit t origs.length

/-- Modelled from the spec's words (§4.2 tier 3: "search a symmetric
window ... for the NEAREST acceptable break character"), for comparison
with the code's left-to-right first-match scan: among the break positions
in [a, b), pick the one with the least distance to the target offset sp,
defaulting to sp when there is none. -/
def nearestBreakSpec (breaks : List Char) (t : Str) (a b sp : ℕ) : ℕ :=
  match (List.range' a (b - a)).filter (fun i =>
    match t[i]? with
    | some ch => decide (ch ∈ breaks)
    | none => false) with
  | [] => sp
  | i :: is => (i :: is).foldl (fun best j =>
      if max j sp - min j sp < max best sp - min best sp then j else best) i

theorem getLastQ_append_single {α : Type} (a : α) :
    ∀ l : List α, (l ++ [a]).getLast? = some a := by
  intro l
  induction l with
  | nil => rfl
  | cons b l ih =>
    cases hl : l ++ [a] with
    | nil => simp at hl
    | cons c t => rw [List.cons_append, hl, List.getLast?_cons_cons, ← hl, ih]

theorem gather_join (ws : List Word) : ∀ cur : List Word,
    ((gatherSentences cur ws).map SentenceW.words).join = cur ++ ws := by
  induction ws with
  | nil =>
    intro cur
    by_cases h : cur.isEmpty
    · simp [gatherSentences, h, List.isEmpty_iff.mp h]
    · simp [gatherSentences, h, closeSentence]
  | cons w rest ih =>
    intro cur
    by_cases h : endsSentence w
    · simp [gatherSentences, h, closeSentence, ih]
    · simp only [gatherSentences, h, if_false, Bool.false_eq_true]
      rw [ih (cur ++ [w])]
      simp

theorem gather_shape (ws : List Word) : ∀ cur s, s ∈ gatherSentences cur ws →
    (∃ w0 l, s.words = w0 :: l ∧ s.start = w0.start_time) ∧
    (∃ wl, s.words.getLast? = some wl ∧ s.stop = wl.end_time) := by
  induction ws with
  | nil =>
    intro cur s hs
    by_cases h : cur.isEmpty
    · simp [gatherSentences, h] at hs
    · simp only [gatherSentences, h, if_false, Bool.false_eq_true, List.mem_singleton] at hs
      subst hs
      rcases cur with _ | ⟨w0, l⟩
      · simp at h
      · refine ⟨⟨w0, l, rfl, by simp [closeSentence]⟩, ?_⟩
        rcases hl : (w0 :: l).getLast? with _ | wl
        · simp at hl
        · exact ⟨wl, hl, by simp [closeSentence, hl]⟩
  | cons w rest ih =>
    intro cur s hs
    by_cases h : endsSentence w
    · simp only [gatherSentences, h, if_true, List.mem_cons] at hs
      rcases hs with hs | hs
      · subst hs
        rcases cur with _ | ⟨w0, l⟩
        · exact ⟨⟨w, [], rfl, by simp [closeSentence]⟩,
            ⟨w, by simp [closeSentence], by simp [closeSentence]⟩⟩
        · exact ⟨⟨w0, l ++ [w], by simp [closeSentence], by simp [closeSentence]⟩,
            ⟨w, by simpa [closeSentence] using getLastQ_append_single w (w0 :: l), by
              show (Option.map Word.end_time ((w0 :: l) ++ [w]).getLast?).getD 0 = w.end_time
              rw [getLastQ_append_single]
              rfl⟩⟩
      · exact ih [] s hs
    · simp only [gatherSentences, h, if_false, Bool.false_eq_true] at hs
      exact ih (cur ++ [w]) s hs

theorem gapFill_words : ∀ l : List SentenceW,
    (gapFill l).map SentenceW.words = l.map SentenceW.words := by
  intro l
  induction l with
  | nil => simp [gapFill]
  | cons s rest ih =>
    rcases rest with _ | ⟨t, rest'⟩
    · simp [gapFill]
    · simp only [gapFill]
      split_ifs with h <;> simp [ih]

theorem gapFill_mem : ∀ l : List SentenceW, ∀ s' ∈ gapFill l,
    ∃ s ∈ l, s'.words = s.words ∧ s'.start = s.start := by
  intro l
  induction l with
  | nil => simp [gapFill]
  | cons s rest ih =>
    rcases rest with _ | ⟨t, rest'⟩
    · intro s' hs'
      simp [gapFill] at hs'
      exact ⟨s, by simp [hs']⟩
    · intro s' hs'
      simp only [gapFill, List.mem_cons] at hs'
      rcases hs' with hs' | hs'
      · refine ⟨s, List.mem_cons_self _ _, ?_⟩
        subst hs'
        split_ifs <;> simp
      · obtain ⟨u, hu, h1, h2⟩ := ih s' hs'
        exact ⟨u, List.mem_cons_of_mem _ hu, h1, h2⟩

/-- C10 — For every input word sequence, the Extractor partitions it
exactly: concatenating the words lists of all returned windows in order
reproduces the input with no word dropped, duplicated or reordered; every
returned window is nonempty with `start` equal to its first word's
start_time; and an empty input yields an empty window list. -/
theorem c10_extract_partition (words : List Word) :
    ((extract_sentences words).map SentenceW.words).join = words ∧
    (∀ s ∈ extract_sentences words,
      ∃ w0 l, s.words = w0 :: l ∧ s.start = w0.start_time) ∧
    extract_sentences ([] : List Word) = [] := by
  refine ⟨?_, ?_, by simp [extract_sentences, gatherSentences, gapFill]⟩
  · rw [extract_sentences, gapFill_words]
    simpa using gather_join words []
  · intro s hs
    obtain ⟨u, hu, h1, h2⟩ := gapFill_mem _ s hs
    obtain ⟨⟨w0, l, hw, hstart⟩, _⟩ := gather_shape words [] u hu
    exact ⟨w0, l, h1 ▸ hw, h2 ▸ hstart⟩

/-- Witness for C10 at a concrete input. -/
theorem c10_witness :
    ((extract_sentences
        [⟨['H', 'i', '.'], 0, 1⟩, ⟨['y', 'o'], 2, 3⟩]).map SentenceW.words).join =
      [⟨['H', 'i', '.'], 0, 1⟩, ⟨['y', 'o'], 2, 3⟩] :=
  (c10_extract_partition [⟨['H', 'i', '.'], 0, 1⟩, ⟨['y', 'o'], 2, 3⟩]).1

theorem head_start_of_join (L : List SentenceW) (w0 : Word) (l : List Word)
    (hj : (L.map SentenceW.words).join = w0 :: l)
    (hs : ∀ s ∈ L, ∃ a b, s.words = a :: b ∧ s.start = a.start_time) :
    ∀ s ∈ L.head?, s.start = w0.start_time := by
  rcases L with _ | ⟨s0, rest⟩
  · simp at hj
  · intro s hmem
    simp only [List.head?_cons, Option.mem_def, Option.some.injEq] at hmem
    obtain ⟨a, b, hw, hst⟩ := hs s0 (List.mem_cons_self _ _)
    have hj' : s0.words ++ (rest.map SentenceW.words).join = w0 :: l := by
      simpa using hj
    rw [hw, List.cons_append] at hj'
    cases hj'
    rw [← hmem]
    exact hst

theorem gather_chain (ws : List Word) : ∀ cur : List Word,
    List.Chain' (fun a b => a.end_time ≤ b.start_time) (cur ++ ws) →
    List.Chain' (fun s t => s.stop ≤ t.start) (gatherSentences cur ws) := by
  induction ws with
  | nil =>
    intro cur _
    by_cases hc : cur.isEmpty <;> simp [gatherSentences, hc]
  | cons w rest ih =>
    intro cur h
    have h' : List.Chain' (fun a b => a.end_time ≤ b.start_time) ((cur ++ [w]) ++ rest) := by
      simpa [List.append_assoc] using h
    rw [List.chain'_append] at h'
    obtain ⟨_, hrest, hcross⟩ := h'
    by_cases hw : endsSentence w
    · simp only [gatherSentences, hw, if_true]
      rw [List.chain'_cons']
      refine ⟨?_, ih [] (by simpa using hrest)⟩
      intro t ht
      rcases rest with _ | ⟨r0, rl⟩
      · simp [gatherSentences] at ht
      · have hts : t.start = r0.start_time := by
          refine head_start_of_join (gatherSentences [] (r0 :: rl)) r0 rl ?_ ?_ t ht
          · simpa using gather_join (r0 :: rl) []
          · intro s hsm
            obtain ⟨⟨a, b, h1, h2⟩, _⟩ := gather_shape (r0 :: rl) [] s hsm
            exact ⟨a, b, h1, h2⟩
        have hcl : (closeSentence (cur ++ [w])).stop = w.end_time := by
          show (Option.map Word.end_time ((cur ++ [w]).getLast?)).getD 0 = w.end_time
          rw [getLastQ_append_single]
          rfl
        rw [hcl, hts]
        exact hcross w (by rw [getLastQ_append_single]; rfl) r0 (by rfl)
    · simp only [gatherSentences, hw, if_false, Bool.false_eq_true]
      exact ih (cur ++ [w]) (by simpa [List.append_assoc] using h)

theorem gapFill_head_start : ∀ l : List SentenceW, ∀ s' ∈ (gapFill l).head?,
    ∃ s ∈ l.head?, s'.start = s.start := by
  intro l
  rcases l with _ | ⟨s, rest⟩
  · simp [gapFill]
  · rcases rest with _ | ⟨t, rest'⟩
    · intro s' hs'
      simp [gapFill] at hs'
      exact ⟨s, by simp, by simp [hs']⟩
    · intro s' hs'
      simp only [gapFill, List.head?_cons, Option.mem_def, Option.some.injEq] at hs'
      subst hs'
      refine ⟨s, by simp, ?_⟩
      split_ifs <;> simp

theorem gapFill_chain : ∀ l : List SentenceW,
    List.Chain' (fun s t => s.stop ≤ t.start) l →
    List.Chain' (fun s t => s.stop ≤ t.start) (gapFill l) := by
  intro l
  induction l with
  | nil => simp [gapFill]
  | cons s rest ih =>
    rcases rest with _ | ⟨t, rest'⟩
    · intro _
      simp [gapFill]
    · intro h
      rw [List.chain'_cons] at h
      obtain ⟨hst, htail⟩ := h
      simp only [gapFill]
      rw [List.chain'_cons']
      refine ⟨?_, ih htail⟩
      intro u hu
      obtain ⟨v, hv, huv⟩ := gapFill_head_start (t :: rest') u hu
      simp only [List.head?_cons, Option.mem_def, Option.some.injEq] at hv
      subst hv
      rw [huv]
      split_ifs with hgap
      · simp only
        linarith
      · exact hst

/-- C3 — For every input word sequence whose words have non-decreasing
timestamps, after the Extractor's gap-fill pass every adjacent pair of
output windows satisfies window[i].end <= window[i+1].start: extending
window i's end by 80% of a gap larger than 0.2s never pushes it past
window i+1's start. -/
theorem c3_gapfill_monotone (words : List Word)
    (_hw : ∀ w ∈ words, w.start_time ≤ w.end_time)
    (hc : List.Chain' (fun a b => a.end_time ≤ b.start_time) words) :
    List.Chain' (fun s t => s.stop ≤ t.start) (extract_sentences words) :=
  gapFill_chain _ (gather_chain words [] (by simpa using hc))

/-- Witness for C3: the spec's worked example
`[("Hello",0.0,0.5),("world.",0.5,1.0),("Bye.",1.5,2.0)]`. -/
theorem c3_witness :
    List.Chain' (fun s t => s.stop ≤ t.start)
      (extract_sentences
        [⟨['H', 'e', 'l', 'l', 'o'], 0, 1/2⟩,
         ⟨['w', 'o', 'r', 'l', 'd', '.'], 1/2, 1⟩,
         ⟨['B', 'y', 'e', '.'], 3/2, 2⟩]) :=
  c3_gapfill_monotone _ (by intro w hw; fin_cases hw <;> norm_num)
    (by norm_num [List.chain'_cons])

theorem hasOverlap_iff (segs : List AudioSeg) :
    hasOverlap segs = true ↔
      ∃ k a b, segs[k]? = some a ∧ segs[k + 1]? = some b ∧
        a.start + a.duration - 2 > b.start := by
  induction segs with
  | nil => simp [hasOverlap]
  | cons a rest ih =>
    rcases rest with _ | ⟨b, rest'⟩
    · constructor
      · intro h
        simp [hasOverlap] at h
      · rintro ⟨k, x, y, h1, h2, h3⟩
        rcases k with _ | k <;> simp at h2
    · rw [hasOverlap]
      simp only [Bool.or_eq_true, decide_eq_true_eq, ih]
      constructor
      · rintro (h | ⟨k, x, y, h1, h2, h3⟩)
        · exact ⟨0, a, b, by simp, by simp, h⟩
        · exact ⟨k + 1, x, y, by simpa using h1, by simpa using h2, h3⟩
      · rintro ⟨k, x, y, h1, h2, h3⟩
        rcases k with _ | k
        · left
          simp only [List.getElem?_cons_zero, Option.some.injEq] at h1
          simp only [List.getElem?_cons_succ, List.getElem?_cons_zero,
            Option.some.injEq] at h2
          rw [← h1, ← h2] at h3
          exact h3
        · right
          exact ⟨k, x, y, by simpa using h1, by simpa using h2, h3⟩

theorem seqTimes_length (segs : List AudioSeg) : ∀ t, (seqTimes t segs).length = segs.length := by
  induction segs with
  | nil => intro t; rfl
  | cons a rest ih => intro t; simp [seqTimes, ih]

theorem seqTimes_head (segs : List AudioSeg) :
    ∀ t, ∀ e ∈ (seqTimes t segs).head?, e.sequential_start = t := by
  rcases segs with _ | ⟨a, rest⟩
  · simp [seqTimes]
  · intro t e he
    simp only [seqTimes, List.head?_cons, Option.mem_def, Option.some.injEq] at he
    rw [← he]

theorem seqTimes_get (segs : List AudioSeg) :
    ∀ (t : ℚ) (k : ℕ) (e : TimingEntry) (s : AudioSeg),
      (seqTimes t segs)[k]? = some e → segs[k]? = some s →
      e.index = s.index ∧ e.sequential_end = e.sequential_start + s.duration := by
  induction segs with
  | nil => simp [seqTimes]
  | cons a rest ih =>
    intro t k e s he hs
    rcases k with _ | k
    · simp only [seqTimes, List.getElem?_cons_zero, Option.some.injEq] at he hs
      rw [← he, ← hs]
      exact ⟨rfl, rfl⟩
    · simp only [seqTimes, List.getElem?_cons_succ] at he hs
      exact ih _ k e s he hs

theorem seqTimes_succ (segs : List AudioSeg) :
    ∀ (t : ℚ) (k : ℕ) (e e' : TimingEntry),
      (seqTimes t segs)[k]? = some e → (seqTimes t segs)[k + 1]? = some e' →
      e'.sequential_start = e.sequential_end + 1/10 := by
  induction segs with
  | nil => simp [seqTimes]
  | cons a rest ih =>
    intro t k e e' he he'
    rcases k with _ | k
    · simp only [seqTimes, List.getElem?_cons_zero, List.getElem?_cons_succ,
        Option.some.injEq] at he he'
      rcases rest with _ | ⟨b, rest'⟩
      · simp [seqTimes] at he'
      · simp only [seqTimes, List.getElem?_cons_zero, Option.some.injEq] at he'
        rw [← he, ← he']
    · simp only [seqTimes, List.getElem?_cons_succ] at he he'
      exact ih _ k e e' he he'

/-- C4 — For every batch of synthesized audio segments (ordered by start
time, as the code sorts them), if some adjacent pair satisfies
`start + duration - 2 > next.start` then the Reconciler recomputes a
sequential timeline for every segment in the batch: entry 0 starts at 0,
each later entry starts at the previous entry's end plus 0.1s, and each
entry ends at its start plus its segment's synthesized duration (keeping
the segment's index); if no pair satisfies the condition, no sequential
timeline is produced. -/
theorem c4_reconciler (segs : List AudioSeg) :
    ((∃ k a b, segs[k]? = some a ∧ segs[k + 1]? = some b ∧
        a.start + a.duration - 2 > b.start) →
      ∃ tl, computeAudioTiming segs = some tl ∧
        tl.length = segs.length ∧
        (∀ e ∈ tl.head?, e.sequential_start = 0) ∧
        (∀ (k : ℕ) (e e' : TimingEntry), tl[k]? = some e → tl[k + 1]? = some e' →
          e'.sequential_start = e.sequential_end + 1/10) ∧
        (∀ (k : ℕ) (e : TimingEntry) (s : AudioSeg), tl[k]? = some e → segs[k]? = some s →
          e.index = s.index ∧
          e.sequential_end = e.sequential_start + s.duration)) ∧
    ((¬ ∃ k a b, segs[k]? = some a ∧ segs[k + 1]? = some b ∧
        a.start + a.duration - 2 > b.start) →
      computeAudioTiming segs = none) := by
  constructor
  · intro h
    have hov : hasOverlap segs = true := (hasOverlap_iff segs).mpr h
    refine ⟨seqTimes 0 segs, by simp [computeAudioTiming, hov], seqTimes_length segs 0,
      seqTimes_head segs 0, ?_, ?_⟩
    · intro k e e' he he'
      exact seqTimes_succ segs 0 k e e' he he'
    · intro k e s he hs
      exact seqTimes_get segs 0 k e s he hs
  · intro h
    have hov : hasOverlap segs = false := by
      rcases hhov : hasOverlap segs with _ | _
      · rfl
      · exact absurd ((hasOverlap_iff segs).mp hhov) h
    simp [computeAudioTiming, hov]

/-- Witness for C4: two segments where the first (start 0, duration 5)
overruns the second (start 1) by more than the 2s margin. -/
theorem c4_witness :
    ∃ tl, computeAudioTiming [⟨0, 0, 5⟩, ⟨1, 1, 2⟩] = some tl ∧ tl.length = 2 := by
  obtain ⟨tl, h1, h2, -, -, -⟩ :=
    (c4_reconciler [⟨0, 0, 5⟩, ⟨1, 1, 2⟩]).1
      ⟨0, ⟨0, 0, 5⟩, ⟨1, 1, 2⟩, by simp, by simp, by norm_num⟩
  exact ⟨tl, h1, by simpa using h2⟩

/-- C8 (amended) — The Display Formatter's maximum line length is 50 for
'en', 15 for 'ja', 30 for 'zh' and 'ko', and 40 for any other non-empty
language tag; the explicitly passed max_line_length is used only when no
target language is given (the language table overrides the explicit
value, not the other way round). -/
theorem c8_maxlen_amended (m : ℕ) (lang : String) :
    effectiveMax m "" = m ∧
    effectiveMax m "en" = 50 ∧
    effectiveMax m "ja" = 15 ∧
    effectiveMax m "zh" = 30 ∧
    effectiveMax m "ko" = 30 ∧
    (lang ≠ "" → lang ≠ "en" → lang ≠ "ja" → lang ≠ "zh" → lang ≠ "ko" →
      effectiveMax m lang = 40) := by
  refine ⟨by simp [effectiveMax], by simp [effectiveMax], by simp [effectiveMax],
    by simp [effectiveMax], by simp [effectiveMax], ?_⟩
  intro h1 h2 h3 h4 h5
  simp [effectiveMax, h1, h2, h3, h4, h5]

/-- Witness for C8 at the concrete tag 'fr'. -/
theorem c8_maxlen_witness : effectiveMax 7 "fr" = 40 :=
  (c8_maxlen_amended 7 "fr").2.2.2.2.2 (by decide) (by decide) (by decide)
    (by decide) (by decide)

/-- Counterexample for C8 as stated: with an explicit max_line_length of
60 and target language 'en', a 55-character sentence would stay on one
line if the override were honoured, but the code wraps it at the
language-derived 50. -/
theorem c8_counterexample :
    format_sentence_for_display
        (List.replicate 27 'a' ++ ' ' :: List.replicate 27 'b') 60 "en" ≠
      [List.replicate 27 'a' ++ ' ' :: List.replicate 27 'b'] := by
  decide

theorem numParts_pos {n : ℕ} (h : 2 < n) : 0 < numParts n := by
  unfold numParts
  omega

/-- C5 — For every segment wrapping to more than 2 display lines over a
window [s, e], the Cue Allocator emits ceil(lines/2) cues of at most 2
lines each; with base = (e-s)/parts, cue k starts at s + k*base and ends
at min of (its start plus its duration) and e, where the duration is base
except base/2 + 1 for a final single-line cue; in particular no cue's end
exceeds the window's end. -/
theorem c5_allocator (idx0 : ℕ) (s e : ℚ) (lines : List Str) (h : 2 < lines.length) :
    (cuesForSegment idx0 s e lines).length = numParts lines.length ∧
    lines.length ≤ 2 * numParts lines.length ∧
    2 * numParts lines.length ≤ lines.length + 1 ∧
    (∀ (k : ℕ) (c : Cue), (cuesForSegment idx0 s e lines)[k]? = some c →
      c.index = idx0 + k ∧
      c.start = s + (k : ℚ) * ((e - s) / (numParts lines.length : ℚ)) ∧
      c.lines = (lines.drop (2 * k)).take 2 ∧
      c.lines.length ≤ 2 ∧
      c.stop = min (c.start +
        (if k = numParts lines.length - 1 ∧ c.lines.length = 1
          then (e - s) / (numParts lines.length : ℚ) / 2 + 1
          else (e - s) / (numParts lines.length : ℚ))) e ∧
      c.stop ≤ e) := by
  rw [cuesForSegment, if_pos h]
  refine ⟨by simp, by unfold numParts; omega, by unfold numParts; omega, ?_⟩
  intro k c hc
  simp only [List.getElem?_map] at hc
  rcases hk : (List.range (numParts lines.length))[k]? with _ | k'
  · rw [hk] at hc
    simp at hc
  · rw [hk] at hc
    have hklt : k < numParts lines.length := by
      by_contra hge
      rw [List.getElem?_eq_none (by simpa using Nat.le_of_not_lt hge)] at hk
      exact Option.noConfusion hk
    rw [List.getElem?_range hklt] at hk
    cases hk
    simp only [Option.map_some', Option.some.injEq] at hc
    subst hc
    refine ⟨rfl, rfl, rfl, ?_, rfl, min_le_right _ _⟩
    exact List.length_take_le _ _ |>.trans (le_refl 2)

/-- Witness for C5: five one-character lines over the window [0, 10]
produce ceil(5/2) = 3 cues. -/
theorem c5_witness :
    (cuesForSegment 1 0 10 [['a'], ['b'], ['c'], ['d'], ['e']]).length =
      numParts 5 :=
  (c5_allocator 1 0 10 [['a'], ['b'], ['c'], ['d'], ['e']] (by norm_num)).1

theorem mem_of_getLastQ {α : Type} {l : List α} {x : α} (h : x ∈ l.getLast?) : x ∈ l := by
  obtain ⟨hne, hx⟩ := List.mem_getLast?_eq_getLast h
  rw [hx]
  exact List.getLast_mem hne

theorem cuesForSegment_ne_nil (idx0 : ℕ) (s e : ℚ) (lines : List Str) :
    cuesForSegment idx0 s e lines ≠ [] := by
  rw [cuesForSegment]
  split_ifs with h
  · have := numParts_pos h
    simp only [ne_eq, List.map_eq_nil, List.range_eq_nil]
    omega
  · simp

theorem cuesForSegment_head_start (idx0 : ℕ) (s e : ℚ) (lines : List Str) :
    ∀ c ∈ (cuesForSegment idx0 s e lines).head?, c.start = s := by
  intro c hc
  by_cases h : 2 < lines.length
  · have hP := numParts_pos h
    obtain ⟨m, hm⟩ : ∃ m, numParts lines.length = m + 1 :=
      ⟨numParts lines.length - 1, by omega⟩
    simp only [cuesForSegment, if_pos h, hm, List.range_succ_eq_map, List.map_cons,
      List.head?_cons, Option.mem_def, Option.some.injEq] at hc
    rw [← hc]
    simp
  · simp only [cuesForSegment, if_neg h, List.head?_cons, Option.mem_def,
      Option.some.injEq] at hc
    rw [← hc]

theorem cuesForSegment_start_bounds (idx0 : ℕ) (s e : ℚ) (lines : List Str) (hse : s ≤ e) :
    ∀ c ∈ cuesForSegment idx0 s e lines, s ≤ c.start ∧ c.start ≤ e := by
  intro c hc
  rw [cuesForSegment] at hc
  split_ifs at hc with h
  · simp only [List.mem_map, List.mem_range] at hc
    obtain ⟨k, hk, hfk⟩ := hc
    have hP := numParts_pos h
    have hPQ : (0 : ℚ) < (numParts lines.length : ℚ) := by exact_mod_cast hP
    have hbase : (0 : ℚ) ≤ (e - s) / (numParts lines.length : ℚ) :=
      div_nonneg (by linarith) hPQ.le
    subst hfk
    simp only
    constructor
    · nlinarith [mul_nonneg (show (0:ℚ) ≤ (k : ℚ) by positivity) hbase]
    · have hk1 : (k : ℚ) ≤ (numParts lines.length : ℚ) - 1 := by
        have : k ≤ numParts lines.length - 1 := by omega
        have h2 : ((numParts lines.length - 1 : ℕ) : ℚ) =
            (numParts lines.length : ℚ) - 1 := by
          push_cast [Nat.cast_sub hP]
          ring
        calc (k : ℚ) ≤ ((numParts lines.length - 1 : ℕ) : ℚ) := by exact_mod_cast this
          _ = (numParts lines.length : ℚ) - 1 := h2
      have hstep : (k : ℚ) * ((e - s) / (numParts lines.length : ℚ)) ≤
          ((numParts lines.length : ℚ) - 1) * ((e - s) / (numParts lines.length : ℚ)) :=
        mul_le_mul_of_nonneg_right hk1 hbase
      have hfull : ((numParts lines.length : ℚ) - 1) *
          ((e - s) / (numParts lines.length : ℚ)) ≤ e - s := by
        have h3 : ((numParts lines.length : ℚ) - 1) *
            ((e - s) / (numParts lines.length : ℚ)) ≤
            (numParts lines.length : ℚ) * ((e - s) / (numParts lines.length : ℚ)) :=
          mul_le_mul_of_nonneg_right (by linarith) hbase
        rwa [mul_div_cancel₀ _ hPQ.ne'] at h3
      linarith
  · simp only [List.mem_singleton] at hc
    subst hc
    exact ⟨le_refl s, hse⟩

theorem cuesForSegment_chain (idx0 : ℕ) (s e : ℚ) (lines : List Str) (hse : s ≤ e) :
    List.Chain' (fun c d => c.start ≤ d.start) (cuesForSegment idx0 s e lines) := by
  rw [cuesForSegment]
  split_ifs with h
  · have hP := numParts_pos h
    have hPQ : (0 : ℚ) < (numParts lines.length : ℚ) := by exact_mod_cast hP
    have hbase : (0 : ℚ) ≤ (e - s) / (numParts lines.length : ℚ) :=
      div_nonneg (by linarith) hPQ.le
    rw [List.chain'_map]
    set b := (e - s) / ((numParts lines.length : ℕ) : ℚ) with hbdef
    obtain ⟨m, hm⟩ : ∃ m, numParts lines.length = m + 1 :=
      ⟨numParts lines.length - 1, by omega⟩
    rw [hm, show m + 1 = Nat.succ m from rfl, List.chain'_range_succ]
    intro k _
    simp only
    have hks : (k : ℚ) ≤ (k.succ : ℚ) := by exact_mod_cast Nat.le_succ k
    have := mul_le_mul_of_nonneg_right hks hbase
    exact add_le_add_left this s
  · simp

theorem cuesForSegment_indices (idx0 : ℕ) (s e : ℚ) (lines : List Str) :
    (cuesForSegment idx0 s e lines).map Cue.index =
      List.range' idx0 (cuesForSegment idx0 s e lines).length := by
  rw [cuesForSegment]
  split_ifs with h
  · rw [List.map_map, List.length_map, List.length_range, List.range'_eq_map_range]
    rfl
  · rfl

theorem headQ_append_left {α : Type} {l1 l2 : List α} {x : α}
    (h : x ∈ (l1 ++ l2).head?) (hne : l1 ≠ []) : x ∈ l1.head? := by
  rcases l1 with _ | ⟨a, t⟩
  · exact absurd rfl hne
  · simpa using h

theorem indices_ranged (l1 l2 : List Cue) (idx : ℕ)
    (h1 : l1.map Cue.index = List.range' idx l1.length)
    (h2 : l2.map Cue.index = List.range' (idx + l1.length) l2.length) :
    (l1 ++ l2).map Cue.index = List.range' idx (l1 ++ l2).length := by
  rw [List.map_append, h1, h2, List.length_append]
  have h3 := List.range'_append idx l1.length l2.length 1
  simp only [one_mul] at h3
  rw [Nat.add_comm l1.length l2.length, ← h3]

theorem createCues_indices (lang : String) (audioTiming : Option (List TimingEntry)) :
    ∀ (segs : List (Str × ℚ × ℚ)) (idx i : ℕ),
      (createCues lang audioTiming idx i segs).map Cue.index =
        List.range' idx (createCues lang audioTiming idx i segs).length := by
  intro segs
  induction segs with
  | nil => intro idx i; rfl
  | cons p rest ih =>
    intro idx i
    rcases p with ⟨text, orig⟩
    simp only [createCues]
    exact indices_ranged _ _ idx (cuesForSegment_indices _ _ _ _) (ih _ _)

theorem createCues_chain (lang : String) (audioTiming : Option (List TimingEntry)) :
    ∀ (segs : List (Str × ℚ × ℚ)) (idx i : ℕ),
      List.Chain' (fun a b => a.2 ≤ b.1) (selectedWindows audioTiming i segs) →
      (∀ w ∈ selectedWindows audioTiming i segs, w.1 ≤ w.2) →
      List.Chain' (fun c d => c.start ≤ d.start) (createCues lang audioTiming idx i segs) := by
  intro segs
  induction segs with
  | nil =>
    intro idx i _ _
    simp [createCues]
  | cons p rest ih =>
    intro idx i h1 h2
    rcases p with ⟨text, orig⟩
    have hw : (selectWindow audioTiming i orig).1 ≤ (selectWindow audioTiming i orig).2 :=
      h2 _ (by simp [selectedWindows])
    have h1' : List.Chain' (fun a b => a.2 ≤ b.1)
        (selectWindow audioTiming i orig :: selectedWindows audioTiming (i + 1) rest) := by
      simpa [selectedWindows] using h1
    simp only [createCues]
    rw [List.chain'_append]
    refine ⟨cuesForSegment_chain _ _ _ _ hw, ?_, ?_⟩
    · refine ih _ (i + 1) ((List.chain'_cons'.mp h1').2) ?_
      intro w hwmem
      exact h2 w (by simp [selectedWindows, hwmem])
    · intro x hx y hy
      have hxe : x.start ≤ (selectWindow audioTiming i orig).2 :=
        (cuesForSegment_start_bounds _ _ _ _ hw x (mem_of_getLastQ hx)).2
      rcases rest with _ | ⟨q, rest'⟩
      · simp [createCues] at hy
      · rcases q with ⟨text', orig'⟩
        simp only [createCues] at hy
        have hy' := headQ_append_left hy (cuesForSegment_ne_nil _ _ _ _)
        have hyh : y.start = (selectWindow audioTiming (i + 1) orig').1 :=
          cuesForSegment_head_start _ _ _ _ y hy'
        have hcross : (selectWindow audioTiming i orig).2 ≤
            (selectWindow audioTiming (i + 1) orig').1 := by
          have := h1'
          simp only [selectedWindows] at this
          exact (List.chain'_cons.mp this).1
        rw [hyh]
        exact le_trans hxe hcross

/-- C6 (amended) — Across the whole batch, cue indices form the sequence
1, 2, 3, ... (strictly increasing by exactly 1, never reset per segment);
and, provided the per-segment windows actually selected (sequential entry
when present at the segment's position, original window otherwise) are
non-degenerate and pairwise non-overlapping in order, cue start times are
non-decreasing across the whole output. -/
theorem c6_cue_ordering_amended (lang : String) (audioTiming : Option (List TimingEntry))
    (segs : List (Str × ℚ × ℚ))
    (h1 : List.Chain' (fun a b => a.2 ≤ b.1) (selectedWindows audioTiming 0 segs))
    (h2 : ∀ w ∈ selectedWindows audioTiming 0 segs, w.1 ≤ w.2) :
    (create_subtitles_cues lang audioTiming segs).map Cue.index =
      List.range' 1 (create_subtitles_cues lang audioTiming segs).length ∧
    List.Chain' (fun c d => c.start ≤ d.start) (create_subtitles_cues lang audioTiming segs) :=
  ⟨createCues_indices lang audioTiming segs 1 0,
    createCues_chain lang audioTiming segs 1 0 h1 h2⟩

/-- Witness for C6 on two one-line segments with the original windows. -/
theorem c6_witness :
    (create_subtitles_cues "en" none [(['a'], 0, 1), (['b'], 2, 3)]).map Cue.index =
      List.range' 1 (create_subtitles_cues "en" none [(['a'], 0, 1), (['b'], 2, 3)]).length ∧
    List.Chain' (fun c d => c.start ≤ d.start)
      (create_subtitles_cues "en" none [(['a'], 0, 1), (['b'], 2, 3)]) :=
  c6_cue_ordering_amended "en" none [(['a'], 0, 1), (['b'], 2, 3)]
    (by norm_num [selectedWindows, selectWindow, List.chain'_cons])
    (by intro w hw; norm_num [selectedWindows, selectWindow] at hw; rcases hw with h | h <;>
      rw [h] <;> norm_num)

/-- Counterexample for C6 as stated: when the sequential timeline is
shorter than the segment list (a segment was skipped during synthesis),
late segments fall back to original windows and cue starts can decrease:
segment 1 gets sequential start 10.1 while segment 2 keeps original
start 3. -/
theorem c6_counterexample :
    ¬ List.Chain' (fun c d => c.start ≤ d.start)
      (create_subtitles_cues "en" (some [⟨0, 0, 10⟩, ⟨2, 101/10, 20⟩])
        [(['a'], 0, 1), (['b'], 2, 3), (['c'], 3, 4)]) := by
  intro hch
  norm_num [create_subtitles_cues, createCues, selectWindow, cuesForSegment,
    format_sentence_for_display, effectiveMax, List.chain'_cons] at hch

theorem find_index_eq (tl : List TimingEntry) : ∀ off : ℕ,
    (∀ (j : ℕ) (entry : TimingEntry), tl[j]? = some entry → entry.index = off + j) →
    ∀ i : ℕ, tl.find? (fun entry => entry.index == off + i) = tl[i]? := by
  induction tl with
  | nil =>
    intro off _ i
    simp
  | cons e0 rest ih =>
    intro off hp i
    have he0 : e0.index = off := by simpa using hp 0 e0 (by simp)
    rcases i with _ | j
    · simp [List.find?, he0]
    · have hne : ¬ (e0.index == off + (j + 1)) = true := by
        simp only [he0, beq_iff_eq]
        omega
      have hp' : ∀ (j' : ℕ) (entry : TimingEntry),
          rest[j']? = some entry → entry.index = (off + 1) + j' := by
        intro j' entry h
        have := hp (j' + 1) entry (by simpa using h)
        omega
      have hih := ih (off + 1) hp' j
      have hstep : List.find? (fun entry => entry.index == off + (j + 1)) (e0 :: rest) =
          List.find? (fun entry => entry.index == off + (j + 1)) rest :=
        List.find?_cons_of_neg rest hne
      rw [hstep, List.getElem?_cons_succ, show off + (j + 1) = off + 1 + j by omega]
      exact hih

/-- C7 (amended) — The Cue Allocator's timeline selection is positional:
segment position i uses the i-th entry of the Sequential Timeline list
when i is within its length (regardless of that entry's stored index),
and the original window otherwise.  Positional selection agrees with the
spec's lookup-by-index exactly when every entry's stored index equals its
position (no segment skipped); with no timeline, the original window is
always used. -/
theorem c7_selection_amended (tl : List TimingEntry) (i : ℕ) (orig : ℚ × ℚ)
    (hidx : ∀ (j : ℕ) (entry : TimingEntry), tl[j]? = some entry → entry.index = j) :
    selectWindow (some tl) i orig = selectWindowSpec (some tl) i orig ∧
    selectWindow none i orig = orig := by
  refine ⟨?_, rfl⟩
  have hfind := find_index_eq tl 0 (by intro j entry h; simpa using hidx j entry h) i
  simp only [Nat.zero_add] at hfind
  rw [selectWindow, selectWindowSpec, hfind]

/-- Witness for C7 at a complete two-entry timeline. -/
theorem c7_witness :
    selectWindow (some [⟨0, 5, 6⟩, ⟨1, 7, 8⟩]) 0 (1, 2) =
      selectWindowSpec (some [⟨0, 5, 6⟩, ⟨1, 7, 8⟩]) 0 (1, 2) :=
  (c7_selection_amended [⟨0, 5, 6⟩, ⟨1, 7, 8⟩] 0 (1, 2) (by
    intro j entry h
    rcases j with _ | _ | j
    · simp only [List.getElem?_cons_zero, Option.some.injEq] at h
      subst h
      rfl
    · simp only [List.getElem?_cons_succ, List.getElem?_cons_zero, Option.some.injEq] at h
      subst h
      rfl
    · simp at h)).1

/-- Counterexample for C7 as stated: the timeline [index 0, index 2] has
no entry for segment index 1, so the claim requires segment 1 to keep its
original window (2, 3); the code instead uses the entry at position 1
(the one with stored index 2). -/
theorem c7_counterexample :
    selectWindow (some [⟨0, 0, 10⟩, ⟨2, 101/10, 20⟩]) 1 (2, 3) ≠
      selectWindowSpec (some [⟨0, 0, 10⟩, ⟨2, 101/10, 20⟩]) 1 (2, 3) := by
  intro hEq
  have h1 : List.find? (fun entry : TimingEntry => entry.index == 1)
      [(⟨0, 0, 10⟩ : TimingEntry), ⟨2, 101/10, 20⟩] = none := by
    rw [List.find?_cons_of_neg _ (by simp)]
    rw [List.find?_cons_of_neg _ (by simp)]
    rfl
  rw [selectWindow, selectWindowSpec, h1] at hEq
  simp only [List.getElem?_cons_succ, List.getElem?_cons_zero] at hEq
  have hfst := congrArg Prod.fst hEq
  norm_num at hfst

/-- Counterexample for C1 as stated: the text "hello" offers no
punctuation at all, so the automatic split returns a single segment even
though two are required. -/
theorem c1_counterexample :
    (split_into_matching_sentences ['h', 'e', 'l', 'l', 'o'] 2).length ≠ 2 := by
  decide

/-- Counterexample for C2 as stated: a text containing the split sentinel
'|' loses it — the automatic split of "a|b" into 2 segments yields
["a", "b"], whose concatenation drops the '|' — and no tier is rejected
(the automatic split performs no fidelity check). -/
theorem c2_counterexample :
    removeWs (split_into_matching_sentences ['a', '|', 'b'] 2).join ≠
      removeWs ['a', '|', 'b'] := by
  decide

theorem removeWs_append (a b : Str) : removeWs (a ++ b) = removeWs a ++ removeWs b :=
  List.filter_append _ _

theorem removeWs_join : ∀ L : List Str, removeWs L.join = (L.map removeWs).join := by
  intro L
  induction L with
  | nil => rfl
  | cons s L ih => simp [List.join, removeWs_append, ih]

theorem removeWs_dropWhile (l : Str) :
    removeWs (l.dropWhile Char.isWhitespace) = removeWs l := by
  induction l with
  | nil => rfl
  | cons c cs ih =>
    by_cases h : c.isWhitespace
    · rw [List.dropWhile_cons_of_pos h, ih]
      simp [removeWs, List.filter_cons, h]
    · rw [List.dropWhile_cons_of_neg h]

theorem removeWs_reverse (l : Str) : removeWs l.reverse = (removeWs l).reverse := by
  simp [removeWs, List.filter_reverse]

theorem removeWs_strip (s : Str) : removeWs (stripStr s) = removeWs s := by
  rw [stripStr, removeWs_reverse, removeWs_dropWhile, removeWs_reverse,
    removeWs_dropWhile, List.reverse_reverse]

theorem removeWs_of_strip_empty {s : Str} (h : stripStr s = []) : removeWs s = [] := by
  rw [← removeWs_strip, h]
  rfl

theorem removeWs_join_cleanParts : ∀ L : List Str,
    removeWs (cleanParts L).join = removeWs L.join := by
  intro L
  induction L with
  | nil => rfl
  | cons s L ih =>
    by_cases h : (stripStr s).isEmpty
    · have h0 : removeWs s = [] := removeWs_of_strip_empty (List.isEmpty_iff.mp h)
      have hcl : cleanParts (s :: L) = cleanParts L := by
        simp [cleanParts, List.filter_cons, h]
      rw [hcl, ih]
      simp [List.join, removeWs_append, h0]
    · have hcl : cleanParts (s :: L) = stripStr s :: cleanParts L := by
        simp [cleanParts, List.filter_cons, h]
      rw [hcl]
      simp [List.join, removeWs_append, removeWs_strip, ih]

theorem splitOnSep_ne_nil (sep : Char) : ∀ t : Str, splitOnSep sep t ≠ [] := by
  intro t
  induction t with
  | nil => simp [splitOnSep]
  | cons c cs ih =>
    rw [splitOnSep]
    rcases h : splitOnSep sep cs with _ | ⟨q, qs⟩
    · exact absurd h ih
    · split_ifs <;> simp

theorem splitOnSep_join (sep : Char) : ∀ t : Str,
    (splitOnSep sep t).join = t.filter (fun c => c != sep) := by
  intro t
  induction t with
  | nil => rfl
  | cons c cs ih =>
    obtain ⟨q, qs, h⟩ : ∃ q qs, splitOnSep sep cs = q :: qs := by
      rcases hh : splitOnSep sep cs with _ | ⟨q, qs⟩
      · exact absurd hh (splitOnSep_ne_nil sep cs)
      · exact ⟨q, qs, rfl⟩
    rw [h] at ih
    by_cases hc : c = sep
    · simp only [splitOnSep, h, if_pos hc, List.join, List.nil_append, List.filter_cons]
      rw [show (c != sep) = false by simp [hc]]
      simpa [List.join] using ih
    · simp only [splitOnSep, h, if_neg hc, List.join, List.cons_append, List.filter_cons]
      rw [show (c != sep) = true by simp [hc]]
      simp only [List.join] at ih
      rw [← ih]
      simp [List.join]

theorem splitOnSep_no_sep (sep : Char) : ∀ t : Str, ∀ s ∈ splitOnSep sep t, sep ∉ s := by
  intro t
  induction t with
  | nil =>
    intro s hs
    simp [splitOnSep] at hs
    simp [hs]
  | cons c cs ih =>
    intro s hs
    obtain ⟨q, qs, h⟩ : ∃ q qs, splitOnSep sep cs = q :: qs := by
      rcases hh : splitOnSep sep cs with _ | ⟨q, qs⟩
      · exact absurd hh (splitOnSep_ne_nil sep cs)
      · exact ⟨q, qs, rfl⟩
    by_cases hc : c = sep
    · simp only [splitOnSep, h, if_pos hc, List.mem_cons] at hs
      rcases hs with hs | hs
      · simp [hs]
      · exact ih s (h ▸ (List.mem_cons.mpr hs))
    · simp only [splitOnSep, h, if_neg hc, List.mem_cons] at hs
      rcases hs with hs | hs
      · rw [hs]
        intro hmem
        rcases List.mem_cons.mp hmem with hmem | hmem
        · exact hc hmem.symm
        · exact ih q (h ▸ List.mem_cons_self _ _) hmem
      · exact ih s (h ▸ List.mem_cons_of_mem _ hs)

theorem markSeps_filter {seps : List Char} (hseps : '|' ∉ seps) : ∀ t : Str,
    (markSeps seps t).filter (fun c => c != '|') = t.filter (fun c => c != '|') := by
  intro t
  induction t with
  | nil => rfl
  | cons c cs ih =>
    by_cases hc : c ∈ seps
    · have hcp : (c != '|') = true := by
        simp only [bne_iff_ne, ne_eq]
        intro hcc
        exact hseps (hcc ▸ hc)
      simp only [markSeps, List.cons_bind, if_pos hc, List.cons_append, List.nil_append,
        List.filter_cons, hcp]
      rw [show (('|' : Char) != '|') = false by simp]
      simpa [markSeps] using ih
    · simp only [markSeps, List.cons_bind, if_neg hc, List.cons_append, List.nil_append,
        List.filter_cons]
      rcases hcp : (c != '|') with _ | _ <;> simpa [markSeps, hcp] using ih

theorem fidelity_split (seps : List Char) (hseps : '|' ∉ seps) (t : Str) (ht : '|' ∉ t) :
    removeWs (cleanParts (splitOnSep '|' (markSeps seps t))).join = removeWs t := by
  rw [removeWs_join_cleanParts, splitOnSep_join, markSeps_filter hseps]
  rw [List.filter_eq_self.mpr ?_]
  intro a ha
  simp only [bne_iff_ne, ne_eq]
  intro haeq
  exact ht (haeq ▸ ha)

theorem mem_stripStr {c : Char} {s : Str} (h : c ∈ stripStr s) : c ∈ s := by
  rw [stripStr, List.mem_reverse] at h
  have h1 := (List.dropWhile_sublist (l := (s.dropWhile Char.isWhitespace).reverse)
    (p := Char.isWhitespace)).subset h
  rw [List.mem_reverse] at h1
  exact (List.dropWhile_sublist (l := s) (p := Char.isWhitespace)).subset h1

theorem mem_cleanParts {s : Str} {L : List Str} (h : s ∈ cleanParts L) :
    ∃ u ∈ L, s = stripStr u := by
  rw [cleanParts, List.mem_filter] at h
  obtain ⟨hmem, -⟩ := h
  rw [List.mem_map] at hmem
  obtain ⟨u, hu, hs⟩ := hmem
  exact ⟨u, hu, hs.symm⟩

theorem initialSplit_no_pipe (t : Str) : ∀ s ∈ initialSplit t, '|' ∉ s := by
  intro s hs
  obtain ⟨u, hu, hsu⟩ := mem_cleanParts hs
  intro hmem
  exact splitOnSep_no_sep '|' _ u hu (mem_stripStr (hsu ▸ hmem))

theorem join_append_my (a b : List Str) : (a ++ b).join = a.join ++ b.join := by
  induction a with
  | nil => rfl
  | cons s a ih => simp [List.join, ih, List.append_assoc]

theorem fidelity_initial (t : Str) (ht : '|' ∉ t) :
    removeWs (initialSplit t).join = removeWs t :=
  fidelity_split primaryEnders (by decide) t ht

theorem fidelity_secondary (s : Str) (hs : '|' ∉ s) :
    removeWs (secondarySplit s).join = removeWs s :=
  fidelity_split secondaryEnders (by decide) s hs

theorem fidelity_bind_secondary : ∀ L : List Str, (∀ s ∈ L, '|' ∉ s) →
    removeWs (L.bind secondarySplit).join = removeWs L.join := by
  intro L
  induction L with
  | nil => intro _; rfl
  | cons s L ih =>
    intro h
    rw [show (s :: L).bind secondarySplit =
        secondarySplit s ++ L.bind secondarySplit from rfl]
    rw [join_append_my, removeWs_append,
      fidelity_secondary s (h s (List.mem_cons_self _ _)),
      ih (fun u hu => h u (List.mem_cons_of_mem _ hu))]
    rw [show (s :: L).join = s ++ L.join from rfl, removeWs_append]

theorem removeWs_joinSpace : ∀ L : List Str, removeWs (joinSpace L) = removeWs L.join := by
  have hsp : ((' ' : Char).isWhitespace) = true := by decide
  intro L
  induction L with
  | nil => rfl
  | cons s L ih =>
    rcases L with _ | ⟨u, L'⟩
    · simp [joinSpace, List.join]
    · rw [show joinSpace (s :: u :: L') = s ++ ' ' :: joinSpace (u :: L') from rfl]
      rw [removeWs_append, show removeWs (' ' :: joinSpace (u :: L')) =
        removeWs (joinSpace (u :: L')) by simp [removeWs, List.filter_cons, hsp]]
      rw [ih]
      simp [List.join, removeWs_append]

theorem combineGo_join (spg : ℚ) : ∀ (rest : List Str) (i : ℕ) (comb cur : List Str),
    removeWs (combineGo spg rest i comb cur).join =
      removeWs comb.join ++ removeWs cur.join ++ removeWs rest.join := by
  intro rest
  induction rest with
  | nil =>
    intro i comb cur
    rw [combineGo]
    by_cases h : cur.isEmpty
    · rw [if_pos h, List.isEmpty_iff.mp h]
      simp [List.join, removeWs]
    · rw [if_neg h]
      have h1 : (comb ++ [joinSpace cur]).join = comb.join ++ joinSpace cur := by
        rw [join_append_my]
        simp [List.join]
      rw [h1, removeWs_append, removeWs_joinSpace]
      simp [List.join, removeWs]
  | cons s rest' ih =>
    intro i comb cur
    rw [combineGo]
    have h2 : (cur ++ [s]).join = cur.join ++ s := by
      rw [join_append_my]
      simp [List.join]
    split_ifs with h
    · rw [ih]
      have h1 : (comb ++ [joinSpace (cur ++ [s])]).join =
          comb.join ++ joinSpace (cur ++ [s]) := by
        rw [join_append_my]
        simp [List.join]
      rw [h1, removeWs_append, removeWs_joinSpace, h2, removeWs_append,
        show (s :: rest').join = s ++ rest'.join from rfl, removeWs_append]
      simp [removeWs, List.append_assoc]
    · rw [ih, h2, removeWs_append,
        show (s :: rest').join = s ++ rest'.join from rfl, removeWs_append]
      simp [List.append_assoc]

theorem combine_sentences_join (l : List Str) (target : ℕ) :
    removeWs (combine_sentences l target).join = removeWs l.join := by
  rw [combine_sentences, combineGo_join]
  simp [List.join, removeWs]

/-- C2 (amended) — For every translated text blob T that does not contain
the split sentinel '|' and every count N, the ordered concatenation of the
segments returned by the automatic split (split_into_matching_sentences),
after removing all whitespace, equals T after removing all whitespace.
(The automatic split never validates fidelity — texts containing '|' lose
those characters with no rejection; the reject-and-fall-through behaviour
exists only in the manual splitter's ja/zh punctuation tiers.) -/
theorem c2_fidelity_amended (t : Str) (target : ℕ) (ht : '|' ∉ t) :
    removeWs (split_into_matching_sentences t target).join = removeWs t := by
  have hinit : removeWs (initialSplit t).join = removeWs t := fidelity_initial t ht
  have hmore : removeWs ((initialSplit t).bind secondarySplit).join = removeWs t := by
    rw [fidelity_bind_secondary _ (initialSplit_no_pipe t), hinit]
  simp only [split_into_matching_sentences]
  split_ifs <;> first
    | exact hinit
    | exact hmore
    | (rw [combine_sentences_join]; exact hinit)
    | (rw [combine_sentences_join]; exact hmore)

/-- Witness for C2 at T = "Hi. Bye.", N = 2. -/
theorem c2_witness :
    removeWs (split_into_matching_sentences
        ['H', 'i', '.', ' ', 'B', 'y', 'e', '.'] 2).join =
      removeWs ['H', 'i', '.', ' ', 'B', 'y', 'e', '.'] :=
  c2_fidelity_amended ['H', 'i', '.', ' ', 'B', 'y', 'e', '.'] 2 (by decide)

theorem natDiv_eq {a b c : ℕ} (hb : 0 < b) (h1 : c * b ≤ a) (h2 : a < (c + 1) * b) :
    a / b = c := by
  have hle : c ≤ a / b := (Nat.le_div_iff_mul_le hb).mpr h1
  have hlt : a / b < c + 1 := by
    rw [Nat.div_lt_iff_lt_mul hb]
    exact h2
  omega

theorem natDiv_upper {a b : ℕ} (hb : 0 < b) : a < (a / b + 1) * b := by
  have h1 := Nat.div_add_mod a b
  have h2 := Nat.mod_lt a hb
  nlinarith [h1, h2]

theorem flushCond_iff (L T i c : ℕ) (hL : 0 < L) (_hT : 0 < T) :
    (((i : ℚ) + 1) / ((L : ℚ) / (T : ℚ)) ≥ ((c : ℚ) + 1)) ↔ (c + 1) * L ≤ (i + 1) * T := by
  have hLQ : (0 : ℚ) < (L : ℚ) := by exact_mod_cast hL
  rw [div_div_eq_mul_div, ge_iff_le, le_div_iff hLQ]
  exact_mod_cast Iff.rfl

theorem combineGo_count (L T : ℕ) (hT : 1 ≤ T) (hLT : T < L) :
    ∀ (rest : List Str) (i : ℕ) (comb cur : List Str),
      i + rest.length = L →
      comb.length = i * T / L →
      (cur.isEmpty = true ↔ (i = 0 ∨ i * T / L = (i - 1) * T / L + 1)) →
      (combineGo ((L : ℚ) / (T : ℚ)) rest i comb cur).length = T := by
  have hL : 0 < L := by omega
  intro rest
  induction rest with
  | nil =>
    intro i comb cur hi hc hcur
    have hiL : i = L := by simpa using hi
    rw [hiL] at hc hcur
    have hfloor_L : L * T / L = T := Nat.mul_div_cancel_left T hL
    have hfloor_prev : (L - 1) * T / L = T - 1 := by
      apply natDiv_eq hL
      · calc (T - 1) * L = T * L - L := by rw [Nat.sub_mul, one_mul]
          _ ≤ T * L - T := Nat.sub_le_sub_left (le_of_lt hLT) _
          _ = L * T - T := by rw [Nat.mul_comm]
          _ = (L - 1) * T := by rw [Nat.sub_mul, one_mul]
      · rw [show T - 1 + 1 = T by omega]
        calc (L - 1) * T = L * T - T := by rw [Nat.sub_mul, one_mul]
          _ < L * T := by
              have hTle : T ≤ L * T := Nat.le_mul_of_pos_left T hL
              have hpos : 0 < T := hT
              omega
          _ = T * L := Nat.mul_comm L T
    have hcur' : cur.isEmpty = true := by
      rw [hcur]
      right
      rw [hfloor_L, hfloor_prev]
      omega
    rw [combineGo, if_pos hcur', hc, hfloor_L]
  | cons s rest' ih =>
    intro i comb cur hi hc hcur
    rw [combineGo]
    have hcl : comb.length * L ≤ i * T := by
      rw [hc]
      exact Nat.div_mul_le_self _ _
    have hcu : i * T < (comb.length + 1) * L := by
      rw [hc]
      exact natDiv_upper hL
    by_cases hcond : ((i : ℚ) + 1) / ((L : ℚ) / (T : ℚ)) ≥ ((comb.length : ℚ) + 1)
    · rw [if_pos hcond]
      have hcondN : (comb.length + 1) * L ≤ (i + 1) * T :=
        (flushCond_iff L T i comb.length hL (by omega)).mp hcond
      have hnew : (i + 1) * T / L = comb.length + 1 := by
        apply natDiv_eq hL hcondN
        calc (i + 1) * T = i * T + T := by rw [Nat.add_mul, one_mul]
          _ < (comb.length + 1) * L + T := Nat.add_lt_add_right hcu T
          _ ≤ (comb.length + 1) * L + L := Nat.add_le_add_left (le_of_lt hLT) _
          _ = (comb.length + 2) * L := by ring
      apply ih (i + 1) (comb ++ [joinSpace (cur ++ [s])]) []
      · simp only [List.length_cons] at hi
        omega
      · rw [hnew]
        simp
      · apply iff_of_true (by simp)
        right
        rw [hnew, Nat.add_sub_cancel, ← hc]
    · rw [if_neg hcond]
      have hlt : (i + 1) * T < (comb.length + 1) * L := by
        by_contra hge
        exact hcond ((flushCond_iff L T i comb.length hL (by omega)).mpr (Nat.le_of_not_lt hge))
      have hnew : (i + 1) * T / L = comb.length := by
        apply natDiv_eq hL
        · exact le_trans hcl (Nat.mul_le_mul_right T (by omega))
        · exact hlt
      apply ih (i + 1) comb (cur ++ [s])
      · simp only [List.length_cons] at hi
        omega
      · rw [hnew]
      · apply iff_of_false (by simp)
        rintro (h0 | heq)
        · omega
        · rw [hnew, Nat.add_sub_cancel, ← hc] at heq
          exact Nat.succ_ne_self comb.length heq.symm

theorem combine_sentences_count (l : List Str) (target : ℕ) (hT : 1 ≤ target)
    (hLT : target < l.length) :
    (combine_sentences l target).length = target := by
  rw [combine_sentences]
  apply combineGo_count l.length target hT hLT l 0 [] []
  · simp
  · simp
  · apply iff_of_true (by simp)
    left
    rfl

theorem tryJaSplit_length (t : Str) (fr : ℚ) (r : List Str)
    (h : tryJaSplit t fr = some r) : r.length = 2 := by
  simp only [tryJaSplit] at h
  split_ifs at h with h1 h2 h3 h4 h5 <;>
    first
      | exact Option.noConfusion h
      | (cases h; assumption)
      | (cases h; rfl)

theorem trySplitChars_length (t : Str) (fr : ℚ) : ∀ (cs : List Char) (r : List Str),
    trySplitChars t fr cs = some r → r.length = 2 := by
  intro cs
  induction cs with
  | nil =>
    intro r h
    exact Option.noConfusion h
  | cons c cs ih =>
    intro r h
    simp only [trySplitChars] at h
    split_ifs at h with h1 h2 h3 <;>
      first
        | (cases h; assumption)
        | (cases h; rfl)
        | exact ih r h

theorem manual_split_count (t : Str) (origs : List OrigSent) (lang : String) :
    (manual_split_sentences t origs lang).length = origs.length := by
  rcases origs with _ | ⟨o1, rest⟩
  · simp [manual_split_sentences, proportionalSplit]
  · rcases rest with _ | ⟨o2, rest2⟩
    · rfl
    · rcases rest2 with _ | ⟨o3, rest3⟩
      · simp only [manual_split_sentences]
        split_ifs with hl
        · rcases htry : tryJaSplit t ((o1.stop - o1.start) /
              ((o1.stop - o1.start) + (o2.stop - o2.start))) with _ | r
          · simp [proportionalSplit2]
          · simpa using tryJaSplit_length _ _ r htry
        · rcases htry : trySplitChars t ((o1.stop - o1.start) /
              ((o1.stop - o1.start) + (o2.stop - o2.start))) ['.', '!', '?'] with _ | r
          · simp [proportionalSplit2]
          · simpa using trySplitChars_length _ _ _ r htry
      · rw [show manual_split_sentences t (o1 :: o2 :: o3 :: rest3) lang =
            proportionalSplit t (o1 :: o2 :: o3 :: rest3).length from rfl]
        simp only [proportionalSplit, List.length_map, List.length_range]

/-- C1 (amended) — split_into_matching_sentences returns exactly N
segments whenever its punctuation splits offer at least N pieces (the
initial sentence-punctuation split, or the secondary
comma/semicolon/colon split, yields at least N pieces); it has no terminal
length-proportional tier and can return fewer otherwise.  The matcher
that never misses the count is manual_split_sentences, which always
returns exactly len(original_sentences) segments — in particular its
length-proportional fallback tiers always produce the required count. -/
theorem c1_count_amended (t : Str) (N : ℕ) (hN : 1 ≤ N)
    (h : N ≤ (initialSplit t).length ∨ N ≤ ((initialSplit t).bind secondarySplit).length) :
    (split_into_matching_sentences t N).length = N ∧
    ∀ (u : Str) (origs : List OrigSent) (lang : String),
      (manual_split_sentences u origs lang).length = origs.length := by
  refine ⟨?_, fun u origs lang => manual_split_count u origs lang⟩
  simp only [split_into_matching_sentences]
  split_ifs with h1 h2 h3 h4 h5
  · exact h1
  · exact combine_sentences_count _ N hN h4
  · omega
  · omega
  · rcases h with h | h <;> omega
  · exact combine_sentences_count _ N hN (by omega)

/-- Witness for C1 at T = "Hi. Bye.", N = 2. -/
theorem c1_witness :
    (split_into_matching_sentences ['H', 'i', '.', ' ', 'B', 'y', 'e', '.'] 2).length = 2 :=
  (c1_count_amended ['H', 'i', '.', ' ', 'B', 'y', 'e', '.'] 2 (by norm_num)
    (Or.inl (by decide))).1

theorem find?_range'_none {p : ℕ → Bool} {a n : ℕ}
    (h : (List.range' a n).find? p = none) :
    ∀ j, a ≤ j → j < a + n → p j = false := by
  intro j h1 h2
  have := List.find?_eq_none.mp h j (by
    rw [List.mem_range'_1]
    exact ⟨h1, h2⟩)
  simpa using this

theorem find?_range'_some {p : ℕ → Bool} : ∀ {n a i : ℕ},
    (List.range' a n).find? p = some i →
    a ≤ i ∧ i < a + n ∧ p i = true ∧ ∀ j, a ≤ j → j < i → p j = false := by
  intro n
  induction n with
  | zero =>
    intro a i h
    exact Option.noConfusion h
  | succ n ih =>
    intro a i h
    rw [List.range'_succ] at h
    by_cases hpa : p a
    · rw [List.find?_cons_of_pos _ hpa] at h
      cases h
      exact ⟨le_refl a, by omega, hpa, fun j h1 h2 => absurd (lt_of_le_of_lt h1 h2)
        (lt_irrefl a)⟩
    · rw [List.find?_cons_of_neg _ (by simpa using hpa)] at h
      obtain ⟨h1, h2, h3, h4⟩ := ih h
      refine ⟨by omega, by omega, h3, ?_⟩
      intro j hj1 hj2
      rcases Nat.eq_or_lt_of_le hj1 with he | hl
      · rw [← he]
        simpa using hpa
      · exact h4 j hl hj2

theorem trySplitChars_none (t : Str) (fr : ℚ)
    (h1 : containsSeq ['.', ' '] t = false)
    (h2 : containsSeq ['!', ' '] t = false)
    (h3 : containsSeq ['?', ' '] t = false) :
    trySplitChars t fr ['.', '!', '?'] = none := by
  rw [trySplitChars, h1, if_neg (by simp)]
  rw [trySplitChars, h2, if_neg (by simp)]
  rw [trySplitChars, h3, if_neg (by simp)]
  rfl

theorem manualSplit_latin (t : Str) (o1 o2 : OrigSent) (lang : String)
    (hja : lang ≠ "ja") (hzh : lang ≠ "zh")
    (h1 : containsSeq ['.', ' '] t = false)
    (h2 : containsSeq ['!', ' '] t = false)
    (h3 : containsSeq ['?', ' '] t = false) :
    manual_split_sentences t [o1, o2] lang =
      proportionalSplit2 [' '] false t
        ((o1.stop - o1.start) / ((o1.stop - o1.start) + (o2.stop - o2.start))) := by
  rw [show manual_split_sentences t [o1, o2] lang =
      (if lang = "ja" ∨ lang = "zh" then
        match tryJaSplit t ((o1.stop - o1.start) /
            ((o1.stop - o1.start) + (o2.stop - o2.start))) with
        | some r => r
        | none => proportionalSplit2 jaBreaks true t
            ((o1.stop - o1.start) / ((o1.stop - o1.start) + (o2.stop - o2.start)))
      else
        match trySplitChars t ((o1.stop - o1.start) /
            ((o1.stop - o1.start) + (o2.stop - o2.start))) ['.', '!', '?'] with
        | some r => r
        | none => proportionalSplit2 [' '] false t
            ((o1.stop - o1.start) / ((o1.stop - o1.start) + (o2.stop - o2.start)))) from rfl]
  rw [if_neg (by simp [hja, hzh])]
  rw [trySplitChars_none t _ h1 h2 h3]

theorem proportionalSplit2_space_spec (t : Str) (fr : ℚ) :
    ∃ best, proportionalSplit2 [' '] false t fr =
        [stripStr (t.take best), stripStr (t.drop best)] ∧
      ((pyIntNat ((t.length : ℚ) * fr) - min 20 (t.length / 4) ≤ best ∧
          best < min t.length (pyIntNat ((t.length : ℚ) * fr) + min 20 (t.length / 4)) ∧
          t[best]? = some ' ' ∧
          ∀ j, pyIntNat ((t.length : ℚ) * fr) - min 20 (t.length / 4) ≤ j → j < best →
            t[j]? ≠ some ' ') ∨
        (best = pyIntNat ((t.length : ℚ) * fr) ∧
          ∀ j, pyIntNat ((t.length : ℚ) * fr) - min 20 (t.length / 4) ≤ j →
            j < min t.length (pyIntNat ((t.length : ℚ) * fr) + min 20 (t.length / 4)) →
            t[j]? ≠ some ' ')) := by
  rcases hf : findBreak [' '] t
      (pyIntNat ((t.length : ℚ) * fr) - min 20 (t.length / 4))
      (min t.length (pyIntNat ((t.length : ℚ) * fr) + min 20 (t.length / 4))) with _ | i
  · refine ⟨pyIntNat ((t.length : ℚ) * fr), ?_, Or.inr ⟨rfl, ?_⟩⟩
    · simp only [proportionalSplit2, hf]
    · intro j hj1 hj2 heq
      rw [findBreak] at hf
      have hp := find?_range'_none hf j hj1 (by omega)
      rw [heq] at hp
      simp at hp
  · refine ⟨i, ?_, ?_⟩
    · simp only [proportionalSplit2, hf, Bool.false_eq_true, if_false]
    · rw [findBreak] at hf
      obtain ⟨hi1, hi2, hi3, hi4⟩ := find?_range'_some hf
      left
      have hb : pyIntNat ((t.length : ℚ) * fr) - min 20 (t.length / 4) ≤
          min t.length (pyIntNat ((t.length : ℚ) * fr) + min 20 (t.length / 4)) ∨
          True := Or.inr trivial
      refine ⟨hi1, by omega, ?_, ?_⟩
      · rcases ht : t[i]? with _ | ch
        · rw [ht] at hi3
          simp at hi3
        · rw [ht] at hi3
          simp only [decide_eq_true_eq, List.mem_singleton] at hi3
          rw [hi3]
      · intro j hj1 hj2 heq
        have hp := hi4 j hj1 hj2
        rw [heq] at hp
        simp at hp

/-- C9 (amended) — For N = 2 with a non-ja/zh language and no
`'. '`/`'! '`/`'? '` occurrence in T, the length-proportional split
computes the target offset as int(len(T) * (first window duration / total
duration)), then scans the window (radius min(20, len(T)//4), clipped to
the text) LEFT TO RIGHT and splits at the FIRST acceptable break
character found — the leftmost in the window, not the one nearest to the
offset — splitting at the raw offset when the window holds none. -/
theorem c9_proportional_amended (t : Str) (o1 o2 : OrigSent) (lang : String)
    (hja : lang ≠ "ja") (hzh : lang ≠ "zh")
    (h1 : containsSeq ['.', ' '] t = false)
    (h2 : containsSeq ['!', ' '] t = false)
    (h3 : containsSeq ['?', ' '] t = false) :
    ∃ best,
      manual_split_sentences t [o1, o2] lang =
        [stripStr (t.take best), stripStr (t.drop best)] ∧
      ((pyIntNat ((t.length : ℚ) *
            ((o1.stop - o1.start) / ((o1.stop - o1.start) + (o2.stop - o2.start)))) -
            min 20 (t.length / 4) ≤ best ∧
          best < min t.length (pyIntNat ((t.length : ℚ) *
            ((o1.stop - o1.start) / ((o1.stop - o1.start) + (o2.stop - o2.start)))) +
            min 20 (t.length / 4)) ∧
          t[best]? = some ' ' ∧
          ∀ j, pyIntNat ((t.length : ℚ) *
              ((o1.stop - o1.start) / ((o1.stop - o1.start) + (o2.stop - o2.start)))) -
              min 20 (t.length / 4) ≤ j → j < best → t[j]? ≠ some ' ') ∨
        (best = pyIntNat ((t.length : ℚ) *
            ((o1.stop - o1.start) / ((o1.stop - o1.start) + (o2.stop - o2.start)))) ∧
          ∀ j, pyIntNat ((t.length : ℚ) *
              ((o1.stop - o1.start) / ((o1.stop - o1.start) + (o2.stop - o2.start)))) -
              min 20 (t.length / 4) ≤ j →
            j < min t.length (pyIntNat ((t.length : ℚ) *
              ((o1.stop - o1.start) / ((o1.stop - o1.start) + (o2.stop - o2.start)))) +
              min 20 (t.length / 4)) → t[j]? ≠ some ' ')) := by
  obtain ⟨best, hval, hspec⟩ := proportionalSplit2_space_spec t
    ((o1.stop - o1.start) / ((o1.stop - o1.start) + (o2.stop - o2.start)))
  exact ⟨best, (manualSplit_latin t o1 o2 lang hja hzh h1 h2 h3).trans hval, hspec⟩

/-- Witness for C9 at T = "ab cd ef" with equal window durations. -/
theorem c9_witness :
    ∃ best,
      manual_split_sentences ['a', 'b', ' ', 'c', 'd', ' ', 'e', 'f']
          [⟨0, 1⟩, ⟨1, 2⟩] "en" =
        [stripStr (['a', 'b', ' ', 'c', 'd', ' ', 'e', 'f'].take best),
         stripStr (['a', 'b', ' ', 'c', 'd', ' ', 'e', 'f'].drop best)] ∧
      ((pyIntNat ((['a', 'b', ' ', 'c', 'd', ' ', 'e', 'f'].length : ℚ) *
            ((((⟨0, 1⟩ : OrigSent)).stop - ((⟨0, 1⟩ : OrigSent)).start) /
              ((((⟨0, 1⟩ : OrigSent)).stop - ((⟨0, 1⟩ : OrigSent)).start) +
                (((⟨1, 2⟩ : OrigSent)).stop - ((⟨1, 2⟩ : OrigSent)).start)))) -
            min 20 (['a', 'b', ' ', 'c', 'd', ' ', 'e', 'f'].length / 4) ≤ best ∧
          best < min ['a', 'b', ' ', 'c', 'd', ' ', 'e', 'f'].length
            (pyIntNat ((['a', 'b', ' ', 'c', 'd', ' ', 'e', 'f'].length : ℚ) *
            ((((⟨0, 1⟩ : OrigSent)).stop - ((⟨0, 1⟩ : OrigSent)).start) /
              ((((⟨0, 1⟩ : OrigSent)).stop - ((⟨0, 1⟩ : OrigSent)).start) +
                (((⟨1, 2⟩ : OrigSent)).stop - ((⟨1, 2⟩ : OrigSent)).start)))) +
            min 20 (['a', 'b', ' ', 'c', 'd', ' ', 'e', 'f'].length / 4)) ∧
          ['a', 'b', ' ', 'c', 'd', ' ', 'e', 'f'][best]? = some ' ' ∧
          ∀ j, pyIntNat ((['a', 'b', ' ', 'c', 'd', ' ', 'e', 'f'].length : ℚ) *
              ((((⟨0, 1⟩ : OrigSent)).stop - ((⟨0, 1⟩ : OrigSent)).start) /
                ((((⟨0, 1⟩ : OrigSent)).stop - ((⟨0, 1⟩ : OrigSent)).start) +
                  (((⟨1, 2⟩ : OrigSent)).stop - ((⟨1, 2⟩ : OrigSent)).start)))) -
              min 20 (['a', 'b', ' ', 'c', 'd', ' ', 'e', 'f'].length / 4) ≤ j →
            j < best → ['a', 'b', ' ', 'c', 'd', ' ', 'e', 'f'][j]? ≠ some ' ') ∨
        (best = pyIntNat ((['a', 'b', ' ', 'c', 'd', ' ', 'e', 'f'].length : ℚ) *
            ((((⟨0, 1⟩ : OrigSent)).stop - ((⟨0, 1⟩ : OrigSent)).start) /
              ((((⟨0, 1⟩ : OrigSent)).stop - ((⟨0, 1⟩ : OrigSent)).start) +
                (((⟨1, 2⟩ : OrigSent)).stop - ((⟨1, 2⟩ : OrigSent)).start)))) ∧
          ∀ j, pyIntNat ((['a', 'b', ' ', 'c', 'd', ' ', 'e', 'f'].length : ℚ) *
              ((((⟨0, 1⟩ : OrigSent)).stop - ((⟨0, 1⟩ : OrigSent)).start) /
                ((((⟨0, 1⟩ : OrigSent)).stop - ((⟨0, 1⟩ : OrigSent)).start) +
                  (((⟨1, 2⟩ : OrigSent)).stop - ((⟨1, 2⟩ : OrigSent)).start)))) -
              min 20 (['a', 'b', ' ', 'c', 'd', ' ', 'e', 'f'].length / 4) ≤ j →
            j < min ['a', 'b', ' ', 'c', 'd', ' ', 'e', 'f'].length
              (pyIntNat ((['a', 'b', ' ', 'c', 'd', ' ', 'e', 'f'].length : ℚ) *
              ((((⟨0, 1⟩ : OrigSent)).stop - ((⟨0, 1⟩ : OrigSent)).start) /
                ((((⟨0, 1⟩ : OrigSent)).stop - ((⟨0, 1⟩ : OrigSent)).start) +
                  (((⟨1, 2⟩ : OrigSent)).stop - ((⟨1, 2⟩ : OrigSent)).start)))) +
              min 20 (['a', 'b', ' ', 'c', 'd', ' ', 'e', 'f'].length / 4)) →
            ['a', 'b', ' ', 'c', 'd', ' ', 'e', 'f'][j]? ≠ some ' ')) :=
  c9_proportional_amended ['a', 'b', ' ', 'c', 'd', ' ', 'e', 'f'] ⟨0, 1⟩ ⟨1, 2⟩ "en"
    (by decide) (by decide) (by decide) (by decide) (by decide)

/-- Counterexample for C9 as stated: in "ab cd ef" with equal window
durations the offset is 4, the window is [2, 6), and two spaces lie in it
at positions 2 and 5; the nearest to the offset is position 5, but the
code splits at the leftmost, position 2. -/
theorem c9_counterexample :
    manual_split_sentences ['a', 'b', ' ', 'c', 'd', ' ', 'e', 'f'] [⟨0, 1⟩, ⟨1, 2⟩] "en" ≠
      [stripStr (['a', 'b', ' ', 'c', 'd', ' ', 'e', 'f'].take
          (nearestBreakSpec [' '] ['a', 'b', ' ', 'c', 'd', ' ', 'e', 'f'] 2 6 4)),
       stripStr (['a', 'b', ' ', 'c', 'd', ' ', 'e', 'f'].drop
          (nearestBreakSpec [' '] ['a', 'b', ' ', 'c', 'd', ' ', 'e', 'f'] 2 6 4))] := by
  have hm := manualSplit_latin ['a', 'b', ' ', 'c', 'd', ' ', 'e', 'f'] ⟨0, 1⟩ ⟨1, 2⟩ "en"
    (by decide) (by decide) (by decide) (by decide) (by decide)
  have hfr : (((⟨0, 1⟩ : OrigSent)).stop - ((⟨0, 1⟩ : OrigSent)).start) /
      ((((⟨0, 1⟩ : OrigSent)).stop - ((⟨0, 1⟩ : OrigSent)).start) +
        (((⟨1, 2⟩ : OrigSent)).stop - ((⟨1, 2⟩ : OrigSent)).start)) = (1/2 : ℚ) := by
    norm_num
  rw [hfr] at hm
  have hlen : (['a', 'b', ' ', 'c', 'd', ' ', 'e', 'f'] : Str).length = 8 := rfl
  have hsp : pyIntNat (((8 : ℕ) : ℚ) * (1/2)) = 4 := by
    rw [show ((8 : ℕ) : ℚ) * (1/2) = ((4 : ℕ) : ℚ) by norm_num]
    rw [pyIntNat, pyInt, if_pos (by positivity), Int.floor_natCast]
    rfl
  have hfb : findBreak [' '] ['a', 'b', ' ', 'c', 'd', ' ', 'e', 'f'] 2 6 = some 2 := by
    decide
  have hval : proportionalSplit2 [' '] false ['a', 'b', ' ', 'c', 'd', ' ', 'e', 'f'] (1/2) =
      [['a', 'b'], ['c', 'd', ' ', 'e', 'f']] := by
    simp only [proportionalSplit2, hlen, hsp]
    norm_num
    rw [hfb]
    decide
  rw [hm, hval]
  decide
